import Mathlib

/-!
Verification of the bonito CRF basecalling pipeline
(`bonito/crf/basecall.py`, `bonito/basecaller.py`, `bonito/io.py`).

Floating-point tensors are modelled over `ℚ`; tensors are lists (flat for
elementwise operations, nested time-step × state lists where a per-dimension
reduction matters).  The int8 cast is modelled as the two's-complement wrap
performed by the 8-bit conversion.  `torch.round` rounds half to even.
-/

namespace Bonito

/-- Two's-complement wrap of an integer into the signed 8-bit range,
modelling a cast `.to(torch.int8)` of an integral value. -/
def int8ofInt (n : ℤ) : ℤ := (n + 128) % 256 - 128

/-- Round to nearest integer, ties to even (the semantics of `torch.round`). -/
def roundHalfEven (q : ℚ) : ℤ :=
  if q - ⌊q⌋ < 1/2 then ⌊q⌋
  else if 1/2 < q - ⌊q⌋ then ⌊q⌋ + 1
  else if ⌊q⌋ % 2 = 0 then ⌊q⌋ else ⌊q⌋ + 1

/-- Model of `torch.clamp(x, lo, hi)` applied elementwise. -/
def clampQ (lo hi q : ℚ) : ℚ := min (max q lo) hi

/-- A floating-point score bundle: the dict `{'scores': ..., 'betas': ...}`
produced by `compute_scores`, flattened elementwise. -/
structure ScoreBundle where
  scores : List ℚ
  betas : List ℚ
deriving DecidableEq, Repr

/-- An int8 score bundle, the return value of `quantise_int8`. -/
structure IntBundle where
  scores : List ℤ
  betas : List ℤ
deriving DecidableEq, Repr

/-- Embedding of `quantise_int8` (bonito/crf/basecall.py lines 48-58).
Python's `scores *= scale` and `betas *= scale` are in-place tensor updates,
so the function both mutates its argument and returns a quantised bundle;
the model threads the argument state explicitly and returns
(state of `x` after the call, returned int8 bundle).
Source lines, in order:
  `scores = x['scores']; scores *= scale` (in-place, visible through `x`),
  `scores = torch.round(scores).to(torch.int8)` (fresh tensor),
  `betas = x['betas']; betas *= scale` (in-place, visible through `x`),
  `betas = torch.round(torch.clamp(betas, -127., 128.)).to(torch.int8)`. -/
def quantise_int8 (x : ScoreBundle) (scale : ℚ := 127/5) : ScoreBundle × IntBundle :=
  let scores := x.scores
  let scores := scores.map (fun v => v * scale)
  let x := { x with scores := scores }
  let scoresI := scores.map (fun v => int8ofInt (roundHalfEven v))
  let betas := x.betas
  let betas := betas.map (fun v => v * scale)
  let x := { x with betas := betas }
  let betasI := betas.map (fun v => int8ofInt (roundHalfEven (clampQ (-127) 128 v)))
  (x, { scores := scoresI, betas := betasI })

/-- Maximum of a tensor row (`Tensor.max` over one dimension; tensor
dimensions are non-empty, the `[]` case is arbitrary). -/
def rowMax : List ℚ → ℚ
  | [] => 0
  | h :: t => t.foldl max h

/-- Embedding of the re-centering of the guide scores in `compute_scores`
(bonito/crf/basecall.py line 41): `betas -= (betas.max(2, keepdim=True)[0] - 5.0)`.
The outer list ranges over time steps, the inner over states. -/
def recentre_betas (betas : List (List ℚ)) : List (List ℚ) :=
  betas.map (fun row => row.map (fun v => v - (rowMax row - 5)))

/-- Embedding of `decode_int8` (bonito/crf/basecall.py lines 73-84).
`beamsearch` (external `kbeam`) is modelled as an oracle returning the best
path; `path_to_str` (external `seqdist`) is modelled as a fallible projection,
`Except.error ()` standing for the `IndexError` it can raise.  The source
wraps only the `path_to_str` call in `try/except IndexError: return ""`. -/
def decode_int8 (beamsearchFn : IntBundle → List ℕ)
    (pathToStr : List ℕ → Except Unit String) (scores : IntBundle) : String :=
  match pathToStr (((beamsearchFn scores).map (fun s => s % 4 + 1))) with
  | Except.ok s => s
  | Except.error _ => ""

theorem rowMax_map_add (c : ℚ) (t : List ℚ) :
    ∀ a : ℚ, (t.map (fun v => v + c)).foldl max (a + c) = t.foldl max a + c := by
  induction t with
  | nil => intro a; rfl
  | cons h t ih =>
    intro a
    rw [List.map_cons, List.foldl_cons, List.foldl_cons, max_add_add_right]
    exact ih (max a h)

theorem roundHalfEven_ge (q : ℚ) (lo : ℤ) (h : (lo : ℚ) ≤ q) : lo ≤ roundHalfEven q := by
  have hf : lo ≤ ⌊q⌋ := Int.le_floor.mpr h
  unfold roundHalfEven
  split
  · exact hf
  · split
    · omega
    · split
      · exact hf
      · omega

theorem roundHalfEven_le (q : ℚ) (hi : ℤ) (h : q ≤ (hi : ℚ)) : roundHalfEven q ≤ hi := by
  have hf : ⌊q⌋ ≤ hi := by
    have h2 := Int.floor_le_floor h
    rwa [Int.floor_intCast] at h2
  unfold roundHalfEven
  split
  · exact hf
  · split
    · rename_i h1 h2
      rcases eq_or_lt_of_le hf with he | hlt
      · exfalso
        rw [he] at h2
        linarith
      · omega
    · rename_i h1 h2
      push_neg at h1 h2
      rcases eq_or_lt_of_le hf with he | hlt
      · exfalso
        rw [he] at h1
        linarith
      · split <;> omega

theorem int8ofInt_eq_self (n : ℤ) (h1 : -128 ≤ n) (h2 : n ≤ 127) : int8ofInt n = n := by
  unfold int8ofInt
  have : (n + 128) % 256 = n + 128 := Int.emod_eq_of_lt (by omega) (by omega)
  omega

theorem clampQ_overflow_eval : clampQ (-127) 128 (6 * (127/5)) = 128 := by
  unfold clampQ
  rw [max_eq_left (by norm_num), min_eq_right (by norm_num)]

theorem roundHalfEven_int (n : ℤ) : roundHalfEven (n : ℚ) = n := by
  unfold roundHalfEven
  rw [Int.floor_intCast]
  norm_num

/-- Claim C1: if projecting the decoded beam-search path to a base string
raises an index-out-of-range error, `decode_int8` returns the empty string
instead of propagating the failure. -/
theorem decode_int8_empty_on_index_error
    (beamsearchFn : IntBundle → List ℕ) (pathToStr : List ℕ → Except Unit String)
    (scores : IntBundle)
    (h : pathToStr ((beamsearchFn scores).map (fun s => s % 4 + 1)) = Except.error ()) :
    decode_int8 beamsearchFn pathToStr scores = "" := by
  unfold decode_int8
  rw [h]

/-- Witness for C1 at a concrete oracle, path and score bundle. -/
theorem decode_int8_empty_on_index_error_witness :
    decode_int8 (fun _ => [0, 5]) (fun _ => Except.error ()) ⟨[1], [2]⟩ = "" :=
  decode_int8_empty_on_index_error (fun _ => [0, 5]) (fun _ => Except.error ()) ⟨[1], [2]⟩ rfl

/-- Claim C3, counterexample: the clamp's upper bound is 128, which is not
representable in signed 8-bit.  For the beta value 6 (scale 127/5), the
scaled value 152.4 clamps to 128, rounds to 128, and the int8 cast wraps it
to -128: the quantised bundle holds -128 where the clamp-round value is 128. -/
theorem quantise_int8_beta_overflow :
    (quantise_int8 ⟨[], [6]⟩ (127/5)).2.betas = [-128] ∧
    roundHalfEven (clampQ (-127) 128 (6 * (127/5))) = 128 ∧
    int8ofInt 128 ≠ 128 := by
  have hr : roundHalfEven (clampQ (-127) 128 (6 * (127/5))) = 128 := by
    rw [clampQ_overflow_eval]
    exact roundHalfEven_int 128
  refine ⟨?_, hr, by decide⟩
  show [int8ofInt (roundHalfEven (clampQ (-127) 128 (6 * (127/5))))] = [-128]
  rw [hr]
  decide

/-- Claim C3, amended: quantised betas are exactly the int8 cast of the
clamp-round value of the scaled betas; that value always lies in [-127, 128];
every such value except the clamp's upper bound 128 is representable in
signed 8-bit and is cast exactly, while 128 wraps to -128. -/
theorem quantise_int8_beta_range (x : ScoreBundle) (scale : ℚ) :
    (quantise_int8 x scale).2.betas =
      x.betas.map (fun b => int8ofInt (roundHalfEven (clampQ (-127) 128 (b * scale)))) ∧
    ∀ b : ℚ,
      -127 ≤ roundHalfEven (clampQ (-127) 128 b) ∧
      roundHalfEven (clampQ (-127) 128 b) ≤ 128 ∧
      ((roundHalfEven (clampQ (-127) 128 b) = 128 ∧
          int8ofInt (roundHalfEven (clampQ (-127) 128 b)) = -128) ∨
        int8ofInt (roundHalfEven (clampQ (-127) 128 b)) =
          roundHalfEven (clampQ (-127) 128 b)) := by
  constructor
  · simp [quantise_int8, List.map_map]
  · intro b
    have hlo : ((-127 : ℤ) : ℚ) ≤ clampQ (-127) 128 b := by
      unfold clampQ
      push_cast
      exact le_min (le_max_right _ _) (by norm_num)
    have hhi : clampQ (-127) 128 b ≤ ((128 : ℤ) : ℚ) := by
      unfold clampQ
      push_cast
      exact min_le_right _ _
    have h1 := roundHalfEven_ge _ _ hlo
    have h2 := roundHalfEven_le _ _ hhi
    refine ⟨h1, h2, ?_⟩
    rcases eq_or_lt_of_le h2 with he | hlt
    · exact Or.inl ⟨he, by rw [he]; decide⟩
    · exact Or.inr (int8ofInt_eq_self _ (by omega) (by omega))

/-- Claim C7, counterexample: `quantise_int8` mutates its argument.  The
in-place `*= scale` updates are visible through the input bundle: after the
call on a bundle whose scores and betas are both [1], the bundle holds
[127/5] in both fields, not the original [1]. -/
theorem quantise_int8_mutates :
    ((quantise_int8 ⟨[1], [1]⟩ (127/5)).1).scores ≠ [1] ∧
    ((quantise_int8 ⟨[1], [1]⟩ (127/5)).1).scores = [127/5] ∧
    ((quantise_int8 ⟨[1], [1]⟩ (127/5)).1).betas = [127/5] := by
  have hs : ((quantise_int8 ⟨[1], [1]⟩ (127/5)).1).scores = [127/5] := by
    show [(1 : ℚ) * (127/5)] = [127/5]
    norm_num
  have hb : ((quantise_int8 ⟨[1], [1]⟩ (127/5)).1).betas = [127/5] := by
    show [(1 : ℚ) * (127/5)] = [127/5]
    norm_num
  refine ⟨?_, hs, hb⟩
  rw [hs]
  intro hx
  have : (127/5 : ℚ) = 1 := List.head_eq_of_cons_eq hx
  norm_num at this

/-- Claim C7, amended: `quantise_int8` scales its argument's `scores` and
`betas` in place — after the call the bundle holds the original values
multiplied by the scale factor — and its result is determined by its
arguments alone (it is a function of `(x, scale)`). -/
theorem quantise_int8_post_state (x : ScoreBundle) (scale : ℚ) :
    (quantise_int8 x scale).1.scores = x.scores.map (fun v => v * scale) ∧
    (quantise_int8 x scale).1.betas = x.betas.map (fun v => v * scale) ∧
    ∀ y : ScoreBundle, y = x → quantise_int8 y scale = quantise_int8 x scale := by
  refine ⟨rfl, rfl, ?_⟩
  intro y hy
  rw [hy]

/-- Claim C9: after the re-centering in `compute_scores`, every non-empty
time step of the guide scores has maximum exactly 5 over the state dimension. -/
theorem recentre_betas_max (betas : List (List ℚ)) (out : List ℚ)
    (hmem : out ∈ recentre_betas betas) (hne : out ≠ []) :
    rowMax out = 5 := by
  rcases List.mem_map.mp hmem with ⟨row, _, hrow⟩
  subst hrow
  cases row with
  | nil => simp at hne
  | cons h t =>
    show rowMax ((h :: t).map (fun v => v - (rowMax (h :: t) - 5))) = 5
    have hrw : (h :: t).map (fun v => v - (rowMax (h :: t) - 5)) =
        (h :: t).map (fun v => v + (-(rowMax (h :: t) - 5))) := by
      apply List.map_congr_left
      intro a _
      ring
    rw [hrw]
    show (t.map (fun v => v + (-(rowMax (h :: t) - 5)))).foldl max
        (h + (-(rowMax (h :: t) - 5))) = 5
    rw [rowMax_map_add]
    show rowMax (h :: t) + (-(rowMax (h :: t) - 5)) = 5
    ring

/-- Witness for C9: re-centering the single time step [1, 3] yields [3, 5],
whose maximum is 5. -/
theorem recentre_betas_max_witness : rowMax [3, 5] = 5 := by
  have h : recentre_betas [[1, 3]] = [[3, 5]] := by
    show [[(1 : ℚ) - (rowMax [1, 3] - 5), 3 - (rowMax [1, 3] - 5)]] = [[3, 5]]
    have hm : rowMax [1, 3] = 3 := by
      show max (1 : ℚ) 3 = 3
      rw [max_eq_right (by norm_num)]
    rw [hm]
    norm_num
  exact recentre_betas_max [[1, 3]] [3, 5]
    (by rw [h]; exact List.mem_singleton.mpr rfl) (by simp)

end Bonito

/-! ### split_read (bonito/crf/basecall.py lines 87-94) -/

/-- Model of `np.arange(0, stop, step)` over naturals: the multiples of
`step` below `stop`.  For `step > 0` it has `⌈stop/step⌉` entries. -/
def arange (stop step : ℕ) : List ℕ :=
  (List.range ((stop + step - 1) / step)).map (fun i => i * step)

/-- Embedding of `split_read` (bonito/crf/basecall.py lines 87-94), keeping
only the signal length of the read (the returned `read` component is the
unchanged input object in the source, so only the `(start, end)` pairs are
modelled).  Source:
  `if len(read.signal) <= split_read_length: return [(read, 0, len(read.signal))]`
  `breaks = np.arange(0, len(read.signal) + split_read_length, split_read_length)`
  `return [(read, start, min(end, len(read.signal))) for (start, end) in zip(breaks[:-1], breaks[1:])]`. -/
def split_read (sigLen : ℕ) (split_read_length : ℕ := 400000) : List (ℕ × ℕ) :=
  if sigLen ≤ split_read_length then [(0, sigLen)]
  else
    ((arange (sigLen + split_read_length) split_read_length).dropLast.zip
      (arange (sigLen + split_read_length) split_read_length).tail).map
      (fun p => (p.1, min p.2 sigLen))

theorem zip_dropLast_tail_map_range (f : ℕ → ℕ) (m : ℕ) :
    (((List.range m).map f).dropLast).zip (((List.range m).map f).tail) =
      (List.range (m - 1)).map (fun i => (f i, f (i + 1))) := by
  apply List.ext_getElem
  · simp [List.length_zip, List.length_dropLast, List.length_tail]
  · intro i h1 h2
    have hi : i < m - 1 := by
      simpa [List.length_zip, List.length_dropLast, List.length_tail] using h1
    have hd : i < (((List.range m).map f).dropLast).length := by
      simpa [List.length_dropLast] using hi
    have ht : i < (((List.range m).map f).tail).length := by
      simpa [List.length_tail] using hi
    rw [List.getElem_zip]
    rw [List.getElem_dropLast, List.getElem_tail]
    simp [List.getElem_map, List.getElem_range]

theorem split_read_closed (L T : ℕ) (hT : 0 < T) (hL : T < L) :
    split_read L T =
      (List.range ((L + T - 1) / T)).map (fun i => (i * T, min ((i + 1) * T) L)) := by
  unfold split_read
  rw [if_neg (by omega)]
  unfold arange
  have hm : (L + T + T - 1) / T = (L + T - 1) / T + 1 := by
    have h1 : L + T + T - 1 = (L + T - 1) + T := by omega
    rw [h1, Nat.add_div_right _ hT]
  rw [hm, zip_dropLast_tail_map_range, Nat.add_sub_cancel, List.map_map]
  rfl

theorem split_read_count (L T : ℕ) (hT : 0 < T) (hL : T < L) :
    (L + T - 1) / T = (L - 1) / T + 1 := by
  have h : L + T - 1 = (L - 1) + T := by omega
  rw [h]
  exact Nat.add_div_right _ hT

/-- Claim C8: `split_read` returns the single piece `(0, signal length)` when
the signal length is at most the threshold; otherwise its pieces are
non-empty intervals of length at most the threshold, consecutive (each start
equals the previous end), starting at 0 and ending at the signal length, so
their concatenation covers exactly `[0, signal length)` in increasing order. -/
theorem split_read_spec (L T : ℕ) (hT : 0 < T) :
    (L ≤ T → split_read L T = [(0, L)]) ∧
    (T < L →
      (∀ p ∈ split_read L T, p.2 - p.1 ≤ T ∧ p.1 < p.2) ∧
      List.Chain' (fun a b : ℕ × ℕ => a.2 = b.1) (split_read L T) ∧
      (split_read L T).head?.map Prod.fst = some 0 ∧
      (split_read L T).getLast?.map Prod.snd = some L) := by
  constructor
  · intro h
    unfold split_read
    rw [if_pos h]
  · intro hL
    rw [split_read_closed L T hT hL]
    have hn : (L + T - 1) / T = (L - 1) / T + 1 := split_read_count L T hT hL
    have hstart : ∀ i, i < (L + T - 1) / T → i * T < L := by
      intro i hi
      rw [hn] at hi
      have h1 : i ≤ (L - 1) / T := by omega
      have h2 : i * T ≤ (L - 1) / T * T := Nat.mul_le_mul_right T h1
      have h3 : (L - 1) / T * T ≤ L - 1 := Nat.div_mul_le_self _ _
      omega
    have hfull : ∀ i, i + 1 < (L + T - 1) / T → (i + 1) * T ≤ L := by
      intro i hi
      rw [hn] at hi
      have h1 : i + 1 ≤ (L - 1) / T := by omega
      have h2 : (i + 1) * T ≤ L - 1 := (Nat.le_div_iff_mul_le hT).mp h1
      omega
    have hcover : L ≤ ((L + T - 1) / T) * T := by
      rw [hn, Nat.succ_mul]
      have h1 := Nat.div_add_mod (L - 1) T
      have h2 := Nat.mod_lt (L - 1) hT
      have hmul : (L - 1) / T * T = T * ((L - 1) / T) := Nat.mul_comm _ _
      omega
    refine ⟨?_, ?_, ?_, ?_⟩
    · intro p hp
      rcases List.mem_map.mp hp with ⟨i, hi, hpi⟩
      rw [List.mem_range] at hi
      subst hpi
      have h1 := hstart i hi
      have h2 : i * T < (i + 1) * T := by
        have : (i + 1) * T = i * T + T := by ring
        omega
      constructor
      · simp only
        have : min ((i + 1) * T) L ≤ (i + 1) * T := min_le_left _ _
        have h3 : (i + 1) * T = i * T + T := by ring
        omega
      · simp only
        omega
    · rw [List.chain'_map, hn, List.chain'_range_succ]
      intro i hi
      simp only
      have h1 : (i + 1) * T ≤ L := hfull i (by omega)
      rw [min_eq_left h1]
    · have hpos : 0 < (L + T - 1) / T := by rw [hn]; exact Nat.succ_pos _
      rcases Nat.exists_eq_add_of_lt hpos with ⟨k, hk⟩
      rw [show (L + T - 1) / T = k + 1 by omega, List.range_succ_eq_map]
      simp
    · have hpos : 0 < (L + T - 1) / T := by rw [hn]; exact Nat.succ_pos _
      rcases Nat.exists_eq_add_of_lt hpos with ⟨k, hk⟩
      have hk2 : (L + T - 1) / T = k + 1 := by omega
      have hle : L ≤ (k + 1) * T := by
        have h5 : (k + 1) * T = ((L + T - 1) / T) * T := by rw [hk2]
        rw [h5]
        exact hcover
      rw [hk2, List.range_succ, List.map_append, List.map_cons, List.map_nil,
        List.getLast?_concat, min_eq_right hle]
      rfl

/-- Witness for C8 at signal length 5 and threshold 2
(pieces `[(0,2), (2,4), (4,5)]`). -/
theorem split_read_spec_witness :
    (5 ≤ 2 → split_read 5 2 = [(0, 5)]) ∧
    (2 < 5 →
      (∀ p ∈ split_read 5 2, p.2 - p.1 ≤ 2 ∧ p.1 < p.2) ∧
      List.Chain' (fun a b : ℕ × ℕ => a.2 = b.1) (split_read 5 2) ∧
      (split_read 5 2).head?.map Prod.fst = some 0 ∧
      (split_read 5 2).getLast?.map Prod.snd = some 5) :=
  split_read_spec 5 2 (by decide)

/-! ### signal_map (bonito/crf/basecall.py lines 124-142) -/

/-- The query start/end fields of a reference mapping record (the external
`mappy` alignment object, restricted to the fields `signal_map` reads). -/
structure Mapping where
  q_st : ℤ
  q_en : ℤ
deriving DecidableEq, Repr

/-- Model of `np.where(alignments == v)[0]`: the indices of `alignments`
holding value `v`, in increasing order. -/
def whereEq (a : List ℤ) (v : ℤ) : List ℕ :=
  (List.range a.length).filter (fun i => a.getD i 0 == v)

/-- Embedding of `signal_map` (bonito/crf/basecall.py lines 124-142), reduced
to the trim-position computation.  `computeAlign` stands for
`compute_signal_alignments(model, read, v)` (Viterbi alignment, an external
torch/seqdist computation) and is invoked only in the mapping branch.  Source:
  `start = np.where(alignments == mapping.q_st)[0].min()` (raises on empty,
  modelled by `Option.map` over `min?`),
  `end = len(alignments)` if `np.where(alignments == mapping.q_en)[0]` is
  empty else its `.max()` (modelled by `max?.getD`),
  `trim_start, trim_end = start * stride, end * stride`;
  with no mapping, `trim_start, trim_end = -1, -1`. -/
def signal_map (stride : ℕ) (computeAlign : Unit → List ℤ) (mapping : Option Mapping) :
    Option (ℤ × ℤ) :=
  match mapping with
  | some m =>
    (whereEq (computeAlign ()) m.q_st).min?.map (fun s =>
      ((s : ℤ) * stride,
        (((whereEq (computeAlign ()) m.q_en).max?.getD (computeAlign ()).length : ℕ) : ℤ)
          * stride))
  | none => some (-1, -1)

theorem mem_whereEq (a : List ℤ) (v : ℤ) (i : ℕ) :
    i ∈ whereEq a v ↔ i < a.length ∧ a.getD i 0 = v := by
  simp [whereEq, List.mem_filter, List.mem_range]

/-- Claim C4: with a mapping, `signal_map` reports
`(min{t : alignment[t] = q_st} * stride, max{t : alignment[t] = q_en} * stride)`,
substituting the full alignment length for the max when `q_en` occurs nowhere;
with no mapping it reports `(-1, -1)` and invokes no alignment computation
(the result is the same for every alignment oracle `g`). -/
theorem signal_map_spec (stride : ℕ) (f g : Unit → List ℤ) (m : Mapping)
    (h : ∃ i, i < (f ()).length ∧ (f ()).getD i 0 = m.q_st) :
    (∃ s e : ℕ,
      signal_map stride f (some m) = some ((s : ℤ) * stride, (e : ℤ) * stride) ∧
      (s < (f ()).length ∧ (f ()).getD s 0 = m.q_st ∧
        ∀ j, j < (f ()).length → (f ()).getD j 0 = m.q_st → s ≤ j) ∧
      ((e < (f ()).length ∧ (f ()).getD e 0 = m.q_en ∧
          ∀ j, j < (f ()).length → (f ()).getD j 0 = m.q_en → j ≤ e) ∨
        (e = (f ()).length ∧ ∀ j, j < (f ()).length → (f ()).getD j 0 ≠ m.q_en))) ∧
    signal_map stride g none = some (-1, -1) := by
  refine ⟨?_, rfl⟩
  have hne : whereEq (f ()) m.q_st ≠ [] := by
    rcases h with ⟨i, hi1, hi2⟩
    intro hemp
    have hm : i ∈ whereEq (f ()) m.q_st := (mem_whereEq _ _ _).mpr ⟨hi1, hi2⟩
    rw [hemp] at hm
    exact absurd hm (List.not_mem_nil i)
  obtain ⟨s, hs⟩ : ∃ s, (whereEq (f ()) m.q_st).min? = some s := by
    cases hmin : (whereEq (f ()) m.q_st).min? with
    | none => exact absurd (List.min?_eq_none_iff.mp hmin) hne
    | some s => exact ⟨s, rfl⟩
  have hsspec := List.min?_eq_some_iff'.mp hs
  have hsmem := (mem_whereEq _ _ _).mp hsspec.1
  refine ⟨s, (whereEq (f ()) m.q_en).max?.getD (f ()).length, ?_, ?_, ?_⟩
  · simp only [signal_map]
    rw [hs]
    rfl
  · refine ⟨hsmem.1, hsmem.2, ?_⟩
    intro j hj1 hj2
    exact hsspec.2 j ((mem_whereEq _ _ _).mpr ⟨hj1, hj2⟩)
  · cases hmax : (whereEq (f ()) m.q_en).max? with
    | none =>
      refine Or.inr ⟨rfl, ?_⟩
      intro j hj1 hj2
      have hm : j ∈ whereEq (f ()) m.q_en := (mem_whereEq _ _ _).mpr ⟨hj1, hj2⟩
      rw [List.max?_eq_none_iff.mp hmax] at hm
      exact absurd hm (List.not_mem_nil j)
    | some e =>
      have hespec := List.max?_eq_some_iff'.mp hmax
      have hemem := (mem_whereEq _ _ _).mp hespec.1
      refine Or.inl ⟨hemem.1, hemem.2, ?_⟩
      intro j hj1 hj2
      exact hespec.2 j ((mem_whereEq _ _ _).mpr ⟨hj1, hj2⟩)

/-- Witness for C4: alignment `[0,0,0,10,200]`, mapping `(q_st, q_en) = (10, 200)`,
stride 5; the first 10 is at index 3 and the last 200 at index 4, so the trims
are `(15, 20)`; with no mapping the result is `(-1, -1)`. -/
theorem signal_map_spec_witness :
    (∃ s e : ℕ,
      signal_map 5 (fun _ => [0, 0, 0, 10, 200]) (some ⟨10, 200⟩) =
        some ((s : ℤ) * 5, (e : ℤ) * 5) ∧
      (s < ((fun _ : Unit => [0, 0, 0, 10, 200]) ()).length ∧
        ((fun _ : Unit => [0, 0, 0, 10, 200]) ()).getD s 0 = (Mapping.mk 10 200).q_st ∧
        ∀ j, j < ((fun _ : Unit => [0, 0, 0, 10, 200]) ()).length →
          ((fun _ : Unit => [0, 0, 0, 10, 200]) ()).getD j 0 = (Mapping.mk 10 200).q_st →
            s ≤ j) ∧
      ((e < ((fun _ : Unit => [0, 0, 0, 10, 200]) ()).length ∧
          ((fun _ : Unit => [0, 0, 0, 10, 200]) ()).getD e 0 = (Mapping.mk 10 200).q_en ∧
          ∀ j, j < ((fun _ : Unit => [0, 0, 0, 10, 200]) ()).length →
            ((fun _ : Unit => [0, 0, 0, 10, 200]) ()).getD j 0 = (Mapping.mk 10 200).q_en →
              j ≤ e) ∨
        (e = ((fun _ : Unit => [0, 0, 0, 10, 200]) ()).length ∧
          ∀ j, j < ((fun _ : Unit => [0, 0, 0, 10, 200]) ()).length →
            ((fun _ : Unit => [0, 0, 0, 10, 200]) ()).getD j 0 ≠ (Mapping.mk 10 200).q_en))) ∧
    signal_map 5 (fun _ => [0, 0, 0, 10, 200]) none = some (-1, -1) :=
  signal_map_spec 5 (fun _ => [0, 0, 0, 10, 200]) (fun _ => [0, 0, 0, 10, 200])
    ⟨10, 200⟩ ⟨3, by decide⟩

/-! ### basecall (bonito/crf/basecall.py lines 145-181) -/

/-- A read: identity plus its signal length (the signal content is consumed
only through the per-sub-read scoring/decoding chain, abstracted below). -/
structure Read where
  rid : ℕ
  sigLen : ℕ
deriving DecidableEq, Repr

/-- The BasecallResult dict built at bonito/crf/basecall.py line 172. -/
structure BRes where
  sequence : String
  qstring : String
  mean_qscore : ℚ
deriving DecidableEq, Repr

/-- Line 172: `{'sequence': seq, 'qstring': '?' * len(seq) if qscores else '*',
'mean_qscore': 0.0}`. -/
def mkBRes (qscores : Bool) (seq : String) : BRes :=
  ⟨seq, if qscores then String.mk (List.replicate seq.length '?') else "*", 0⟩

/-- Line 150: `split_read(read)[::-1 if reverse else 1]` — the sub-read
intervals of one read, reversed when decoding the reverse-complement strand. -/
def subread_parts (reverse : Bool) (r : Read) : List (ℕ × ℕ) :=
  if reverse then (split_read r.sigLen).reverse else split_read r.sigLen

/-- One step of consecutive-key grouping: prepend `(r, s)` to an already
grouped tail, merging into the first group when its key equals `r`. -/
def groupInsert (r : Read) (s : String) :
    List (Read × List String) → List (Read × List String)
  | [] => [(r, [s])]
  | (r2, g) :: gs => if r = r2 then (r, s :: g) :: gs else (r, [s]) :: (r2, g) :: gs

/-- Model of `itertools.groupby` keyed on the read (line 169: sub-reads of one
parent share the same read object, so the key of `(read, seq)` is `read`):
maximal runs of consecutive pairs with equal key are merged, keeping order. -/
def groupByKey : List (Read × String) → List (Read × List String)
  | [] => []
  | (r, s) :: rest => groupInsert r s (groupByKey rest)

/-- Embedding of `basecall` (bonito/crf/basecall.py lines 145-181), with
`aligner=None`.  `decodeFn read start end` abstracts the per-sub-read
chunk → score → quantise → stitch → transfer → beam-search-decode chain
(`chunk`, `batchify`, `unbatchify`, `thread_iter`, `thread_map` live in
`bonito.util` / `bonito.multiprocessing`, outside this repository's sources).
Modelled from the spec: per §5, chunks and decode results of one (sub)read
flow through the batching/threading stages in signal order and sub-reads of
one parent arrive contiguously at the regrouping step, so that whole chain is
an order-preserving map over the sub-read stream.  Lines 150 (sub-read order),
167-170 (regroup by parent key and concatenate) and 171-174 (result dict) are
modelled directly. -/
def basecall (decodeFn : Read → ℕ → ℕ → String) (qscores reverse : Bool)
    (reads : List Read) : List (Read × BRes) :=
  (groupByKey
      ((reads.flatMap (fun r => (subread_parts reverse r).map (fun p => (r, p.1, p.2)))).map
        (fun t => (t.1, decodeFn t.1 t.2.1 t.2.2)))).map
    (fun g => (g.1, mkBRes qscores (String.join g.2)))

theorem groupByKey_cons (r : Read) (s : String) (l : List (Read × String)) :
    groupByKey ((r, s) :: l) = groupInsert r s (groupByKey l) :=
  rfl

theorem groupByKey_head (q : Read × String) (l : List (Read × String)) :
    ∃ g gs, groupByKey (q :: l) = (q.1, g) :: gs := by
  cases q with
  | mk r s =>
    rw [groupByKey_cons]
    cases hgl : groupByKey l with
    | nil => exact ⟨[s], [], rfl⟩
    | cons hd tl =>
      cases hd with
      | mk r2 g =>
        by_cases hrr : r = r2
        · exact ⟨s :: g, tl, by simp only [groupInsert, if_pos hrr]⟩
        · exact ⟨[s], (r2, g) :: tl, by simp only [groupInsert, if_neg hrr]⟩

theorem groupByKey_run (r : Read) (ss : List String) (rest : List (Read × String))
    (hne : ss ≠ []) (hrest : ∀ p ∈ rest, (p : Read × String).1 ≠ r) :
    groupByKey (ss.map (fun s => (r, s)) ++ rest) = (r, ss) :: groupByKey rest := by
  induction ss with
  | nil => cases hne rfl
  | cons s ss ih =>
    cases ss with
    | nil =>
      simp only [List.map_cons, List.map_nil, List.cons_append, List.nil_append]
      rw [groupByKey_cons]
      cases rest with
      | nil => rfl
      | cons q l =>
        obtain ⟨g, gs, hg⟩ := groupByKey_head q l
        have hq : ¬ (r = q.1) := fun hh => hrest q (List.mem_cons_self q l) hh.symm
        rw [hg]
        simp only [groupInsert, if_neg hq]
    | cons s2 ss2 =>
      have hih := ih (by simp)
      rw [List.map_cons, List.cons_append, groupByKey_cons, hih]
      simp [groupInsert]

theorem subread_parts_ne_nil (reverse : Bool) (r : Read) : subread_parts reverse r ≠ [] := by
  have hsplit : split_read r.sigLen ≠ [] := by
    by_cases h : r.sigLen ≤ 400000
    · unfold split_read
      rw [if_pos h]
      exact List.cons_ne_nil _ _
    · rw [split_read_closed r.sigLen 400000 (by omega) (by omega)]
      have hpos : 0 < (r.sigLen + 400000 - 1) / 400000 := by
        rw [split_read_count r.sigLen 400000 (by omega) (by omega)]
        exact Nat.succ_pos _
      intro hemp
      have hlen := congrArg List.length hemp
      simp only [List.length_map, List.length_range, List.length_nil] at hlen
      omega
  unfold subread_parts
  split
  · simpa using hsplit
  · exact hsplit

/-- Claim C5: with pairwise-distinct reads, `basecall` emits one result per
read, in read order; each result's sequence is the concatenation of the
decoded sequences of that read's sub-reads taken in `subread_parts` order —
the `split_read` order, reversed when decoding the reverse-complement strand —
regrouped under the parent read's key. -/
theorem basecall_subread_order (decodeFn : Read → ℕ → ℕ → String)
    (qscores reverse : Bool) (reads : List Read)
    (hnd : reads.Pairwise (fun a b => a ≠ b)) :
    basecall decodeFn qscores reverse reads =
      reads.map (fun r =>
        (r, mkBRes qscores
          (String.join ((subread_parts reverse r).map (fun p => decodeFn r p.1 p.2))))) := by
  induction reads with
  | nil => rfl
  | cons r rs ih =>
    rw [List.pairwise_cons] at hnd
    unfold basecall
    rw [List.flatMap_cons, List.map_append]
    have hrun :
        ((subread_parts reverse r).map (fun p => (r, p.1, p.2))).map
            (fun t => (t.1, decodeFn t.1 t.2.1 t.2.2)) =
          ((subread_parts reverse r).map (fun p => decodeFn r p.1 p.2)).map
            (fun s => (r, s)) := by
      rw [List.map_map, List.map_map]
      rfl
    have hne : (subread_parts reverse r).map (fun p => decodeFn r p.1 p.2) ≠ [] := by
      intro hemp
      exact subread_parts_ne_nil reverse r (List.map_eq_nil_iff.mp hemp)
    have hrest : ∀ p ∈ (rs.flatMap
        (fun r2 => (subread_parts reverse r2).map (fun p => (r2, p.1, p.2)))).map
          (fun t => (t.1, decodeFn t.1 t.2.1 t.2.2)),
        (p : Read × String).1 ≠ r := by
      intro p hp
      rcases List.mem_map.mp hp with ⟨t, ht, hpt⟩
      rcases List.mem_flatMap.mp ht with ⟨r2, hr2, htr2⟩
      rcases List.mem_map.mp htr2 with ⟨q, _, hq⟩
      subst hpt
      subst hq
      exact fun hh => (hnd.1 r2 hr2) hh.symm
    rw [hrun, groupByKey_run r _ _ hne hrest]
    simp only [List.map_cons, List.cons.injEq]
    have hih := ih hnd.2
    unfold basecall at hih
    exact ⟨trivial, hih⟩

/-- Witness for C5: two distinct reads, the first long enough to be split
into two sub-reads, a constant decoder. -/
theorem basecall_subread_order_witness :
    basecall (fun _ _ _ => "A") false false [⟨1, 800000⟩, ⟨2, 5⟩] =
      [(⟨1, 800000⟩ : Read), ⟨2, 5⟩].map (fun r =>
        (r, mkBRes false
          (String.join ((subread_parts false r).map
            (fun p => (fun (_ : Read) (_ _ : ℕ) => "A") r p.1 p.2))))) :=
  basecall_subread_order (fun _ _ _ => "A") false false [⟨1, 800000⟩, ⟨2, 5⟩]
    (by simp [List.pairwise_cons])

/-- Claim C10: every result emitted by `basecall` carries placeholder
quality: mean_qscore 0.0, and qstring a single asterisk character when
qscores is off, or one question mark per base when it is on. -/
theorem basecall_placeholder_quality (decodeFn : Read → ℕ → ℕ → String)
    (qscores reverse : Bool) (reads : List Read) (pr : Read × BRes)
    (hpr : pr ∈ basecall decodeFn qscores reverse reads) :
    pr.2.mean_qscore = 0 ∧
    pr.2.qstring =
      (if qscores then String.mk (List.replicate pr.2.sequence.length '?') else "*") := by
  unfold basecall at hpr
  rcases List.mem_map.mp hpr with ⟨g, _, hpg⟩
  subst hpg
  exact ⟨rfl, rfl⟩

/-- Witness for C10 for a single read and qscores on. -/
theorem basecall_placeholder_quality_witness :
    ((⟨1, 10⟩, mkBRes true "A") : Read × BRes).2.mean_qscore = 0 ∧
    ((⟨1, 10⟩, mkBRes true "A") : Read × BRes).2.qstring =
      (if true then
        String.mk (List.replicate ((⟨1, 10⟩, mkBRes true "A") : Read × BRes).2.sequence.length
          '?')
      else "*") :=
  basecall_placeholder_quality (fun _ _ _ => "A") true false [⟨1, 10⟩]
    (⟨1, 10⟩, mkBRes true "A") (by decide)

/-! ### Writer.run (bonito/io.py lines 446-505) -/

/-- A read as seen by the writer: identifier and raw signal length. -/
structure WRead where
  rid : String
  signalLen : ℕ
deriving DecidableEq, Repr

/-- The result dict consumed by the writer: `res['sequence']`,
`res.get('qstring', '*')`, `res.get('mean_qscore', 0.0)`,
`res.get('mapping', False)` (modelled as an optional mapping record). -/
structure WRes where
  sequence : String
  qstring : String
  mean_qscore : ℚ
  mapping : Option Mapping
deriving DecidableEq, Repr

/-- An output record written by the writer (sam when an aligner is attached,
else fastq or fasta, bonito/io.py lines 486-495). -/
inductive OutRecord where
  | sam (rid seq qstring : String) (unaligned : Bool)
  | fastq (rid seq qstring : String)
  | fasta (rid seq : String)
deriving DecidableEq, Repr

/-- The per-read summary tsv row (bonito/io.py lines 299-346), reduced to the
fields the writer computes from the (read, result) pair itself. -/
structure SummaryRow where
  read_id : String
  seqlen : ℕ
  mean_qscore : ℚ
deriving DecidableEq, Repr

/-- The format choice at bonito/io.py lines 486-495. -/
def writeRecord (alignerOn fastq : Bool) (rid seq qstring : String)
    (mapping : Option Mapping) : OutRecord :=
  if alignerOn then OutRecord.sam rid seq qstring mapping.isNone
  else if fastq then OutRecord.fastq rid seq qstring
  else OutRecord.fasta rid seq

/-- Embedding of the `Writer.run` loop (bonito/io.py lines 464-505,
non-duplex): for each (read, result), if the sequence is non-empty it writes
one output record, appends one summary row and logs the read; otherwise it
only logs `logger.warn("> skipping empty sequence %s", read_id)`.  Returns
(output records, summary rows, warning log lines), each in iteration order. -/
def writer_run (alignerOn fastq : Bool) :
    List (WRead × WRes) → List OutRecord × List SummaryRow × List String
  | [] => ([], [], [])
  | (read, res) :: rest =>
    if res.sequence.length ≠ 0 then
      (writeRecord alignerOn fastq read.rid res.sequence res.qstring res.mapping ::
          (writer_run alignerOn fastq rest).1,
        ⟨read.rid, res.sequence.length, res.mean_qscore⟩ :: (writer_run alignerOn fastq rest).2.1,
        (writer_run alignerOn fastq rest).2.2)
    else
      ((writer_run alignerOn fastq rest).1,
        (writer_run alignerOn fastq rest).2.1,
        ("> skipping empty sequence " ++ read.rid) :: (writer_run alignerOn fastq rest).2.2)

/-- Claim C6: the writer emits exactly one output record and one summary row
per consumed pair with a non-empty sequence (in order), and for every pair
with an empty sequence it emits nothing but logs a skip line containing the
read identifier. -/
theorem writer_run_spec (alignerOn fastq : Bool) (pairs : List (WRead × WRes)) :
    (writer_run alignerOn fastq pairs).1 =
      (pairs.filter (fun p => p.2.sequence.length ≠ 0)).map
        (fun p => writeRecord alignerOn fastq p.1.rid p.2.sequence p.2.qstring p.2.mapping) ∧
    (writer_run alignerOn fastq pairs).2.1 =
      (pairs.filter (fun p => p.2.sequence.length ≠ 0)).map
        (fun p => ⟨p.1.rid, p.2.sequence.length, p.2.mean_qscore⟩) ∧
    (writer_run alignerOn fastq pairs).2.2 =
      (pairs.filter (fun p => p.2.sequence.length = 0)).map
        (fun p => "> skipping empty sequence " ++ p.1.rid) := by
  induction pairs with
  | nil => exact ⟨rfl, rfl, rfl⟩
  | cons p rest ih =>
    cases p with
    | mk read res =>
      by_cases h : res.sequence.length = 0
      · refine ⟨?_, ?_, ?_⟩ <;>
          simp [writer_run, List.filter_cons, h, ih.1, ih.2.1, ih.2.2]
      · refine ⟨?_, ?_, ?_⟩ <;>
          simp [writer_run, List.filter_cons, h, ih.1, ih.2.1, ih.2.2]

/-! ### basecaller main (bonito/basecaller.py lines 19-54) -/

/-- A raw read as produced by `get_raw_data`: identifier and sample count. -/
structure RawRead where
  rid : String
  rawLen : ℕ
deriving DecidableEq, Repr

/-- `max_read_size = 1e9` (bonito/basecaller.py line 26). -/
def max_read_size : ℕ := 1000000000

/-- The loop counters and effects of `main` (bonito/basecaller.py lines
24-48): `num_reads`, `samples`, the stderr log lines, and the read ids put on
the decoder queue (i.e. scored and sent for basecalling). -/
structure CallerState where
  numReads : ℕ
  samples : ℕ
  logs : List String
  queued : List String
deriving DecidableEq, Repr

/-- Embedding of one iteration of the read loop in `main`
(bonito/basecaller.py lines 35-48).  The source logs
`"> skipping %s: %s too long" % (len(raw_data), read_id)` (note the length
and the id are interpolated in that order) and then executes `pass` — not
`continue` — so it falls through: the read is still counted in `num_reads`,
its samples accumulated, its posteriors computed and the read queued to the
decoder. -/
def processRead (st : CallerState) (r : RawRead) : CallerState :=
  let st :=
    if max_read_size < r.rawLen then
      { st with logs := st.logs ++
          ["> skipping " ++ toString r.rawLen ++ ": " ++ r.rid ++ " too long"] }
    else st
  { st with
    numReads := st.numReads + 1,
    samples := st.samples + r.rawLen,
    queued := st.queued ++ [r.rid] }

/-- Embedding of the read loop of `main` over the stream of raw reads. -/
def basecaller_main (reads : List RawRead) : CallerState :=
  reads.foldl processRead ⟨0, 0, [], []⟩

/-- Claim C2 fails on the code: for a read longer than `max_read_size` the
loop writes the "skipping" log line but, because the branch body ends in
`pass` instead of `continue`, the read is still counted, its samples are
accumulated and it is scored and queued — it is not excluded from
basecalling. -/
theorem basecaller_oversized_not_skipped :
    (basecaller_main [⟨"read-1", 1000000001⟩]).logs =
      ["> skipping 1000000001: read-1 too long"] ∧
    (basecaller_main [⟨"read-1", 1000000001⟩]).numReads = 1 ∧
    (basecaller_main [⟨"read-1", 1000000001⟩]).samples = 1000000001 ∧
    (basecaller_main [⟨"read-1", 1000000001⟩]).queued = ["read-1"] :=
  ⟨rfl, rfl, rfl, rfl⟩
